import Mathlib

/-!
Verification of `cleanup_history.py`, a one-shot repository-sanitization
utility.  The script enumerates version-control-tracked files, skips binary
and vendor/build artifacts, rewrites text content to redact a username token
and Windows user-home paths, and finally stages all changes.

The embedding below translates each Python function into a Lean definition:

* `is_binary_string` / `is_binary`  — the byte heuristic (lines 5–14);
* `pyReplace`                        — Python `str.replace` (line 31);
* `matchHome` / `subHome`            — `re.sub(r'C:\\Users\\[^\\]+\\', '/USER_HOME/', ·)`
                                        (line 34), as the standard leftmost,
                                        non-overlapping scan;
* `redact`                           — the pure text transform of
                                        `replace_pii` (lines 30–34);
* `replace_pii`                      — the whole per-file operation, over an
                                        explicit file-system state plus an
                                        event trace (lines 16–39);
* `main`                             — the run loop (lines 41–51).

Scanning functions are written with an explicit fuel argument so that they
are structurally recursive (hence kernel-evaluable); one scan step always
consumes at least one character, so `fuel = length` is enough, and the
unconditional step equations (`subHome_nil`, `subHome_cons_none`,
`subHome_cons_some`, …) characterise the scan independently of the fuel.
-/

/-- The literal part `C:\Users\` of the regex `C:\\Users\\[^\\]+\\`. -/
def homePattern : List Char := ['C', ':', '\\', 'U', 's', 'e', 'r', 's', '\\']

/-- The replacement string `/USER_HOME/` (line 34). -/
def userHome : List Char := ['/', 'U', 'S', 'E', 'R', '_', 'H', 'O', 'M', 'E', '/']

/-- The username token `USER` (line 31). -/
def userTok : List Char := ['U', 'S', 'E', 'R']

/-- One attempt of the regex `C:\\Users\\[^\\]+\\` anchored at the head of
`l`: the literal `C:\Users\`, then `[^\\]+` (one or more characters other
than a backslash, which necessarily ends right before the next backslash),
then a final `\`.  Returns the remainder after the match, or `none`. -/
def matchHome (l : List Char) : Option (List Char) :=
  if homePattern.isPrefixOf l then
    if (l.drop 9).takeWhile (fun a => a != '\\') = [] then none
    else
      match (l.drop 9).dropWhile (fun a => a != '\\') with
      | '\\' :: t => some t
      | _ => none
  else none

/-- Leftmost non-overlapping `re.sub` scan for the home-path regex, with
fuel bounding the number of scan steps (each step consumes at least one
character, so `l.length` is always enough fuel). -/
def subHomeF : Nat → List Char → List Char
  | _, [] => []
  | 0, l => l
  | fuel + 1, c :: cs =>
    match matchHome (c :: cs) with
    | some t => userHome ++ subHomeF fuel t
    | none => c :: subHomeF fuel cs

/-- `re.sub(r'C:\\Users\\[^\\]+\\', '/USER_HOME/', ·)` on a character list. -/
def subHome (l : List Char) : List Char := subHomeF l.length l

/-- Python `str.replace(pat, rep)`: leftmost non-overlapping replacement of
every occurrence of `pat` by `rep`, with fuel (faithful for `pat ≠ []`,
which is the only way it is used here). -/
def pyReplaceF (pat rep : List Char) : Nat → List Char → List Char
  | _, [] => []
  | 0, l => l
  | fuel + 1, c :: cs =>
    if pat.isPrefixOf (c :: cs) then
      rep ++ pyReplaceF pat rep fuel ((c :: cs).drop pat.length)
    else c :: pyReplaceF pat rep fuel cs

/-- Python `content.replace(pat, rep)`. -/
def pyReplace (pat rep l : List Char) : List Char := pyReplaceF pat rep l.length l

/-- The pure text transform of `replace_pii` (lines 30–34):
`content.replace('USER', 'USER')` followed by
`re.sub(r'C:\\Users\\[^\\]+\\', '/USER_HOME/', content)`. -/
def redact (content : String) : String :=
  ⟨subHome (pyReplace userTok userTok content.data)⟩

/-- `matchHome` succeeds at every suffix position nowhere in `l`:
no occurrence of the home-path pattern starts anywhere in `l`. -/
def matchesNowhere (l : List Char) : Prop := ∀ t ∈ l.tails, matchHome t = none

instance (l : List Char) : Decidable (matchesNowhere l) := by
  unfold matchesNowhere; infer_instance

-- ### Basic facts about `matchHome`

theorem matchHome_nil : matchHome [] = none := by decide

theorem matchHome_none_of_not_pre {l : List Char}
    (h : ¬ homePattern <+: l) : matchHome l = none := by
  unfold matchHome
  rw [if_neg]
  simpa using h

theorem matchHome_none_of_head {c : Char} {cs : List Char} (h : c ≠ 'C') :
    matchHome (c :: cs) = none := by
  apply matchHome_none_of_not_pre
  intro hpre
  rw [show homePattern = 'C' :: homePattern.tail from rfl] at hpre
  exact h (List.cons_prefix_cons.mp hpre).1.symm

theorem matchHome_none_of_no_bs {l : List Char} (h : ∀ a ∈ l, a ≠ '\\') :
    matchHome l = none := by
  apply matchHome_none_of_not_pre
  intro hpre
  exact h '\\' (hpre.subset (by decide)) rfl

/-- Helper: `takeWhile` over an append whose left part wholly satisfies the
predicate and whose right part starts with a failing element. -/
theorem takeWhile_append_all {q : Char → Bool} {b : Char} :
    ∀ {p : List Char} {u : List Char}, (∀ a ∈ p, q a = true) → q b = false →
      (p ++ b :: u).takeWhile q = p
  | [], u, _, hb => by simp [List.takeWhile_cons, hb]
  | a :: p, u, hp, hb => by
    have ha : q a = true := hp a (by simp)
    simp only [List.cons_append, List.takeWhile_cons, ha, if_true]
    rw [takeWhile_append_all (fun x hx => hp x (by simp [hx])) hb]

/-- Helper: `dropWhile` over the same shape of append. -/
theorem dropWhile_append_all {q : Char → Bool} {b : Char} :
    ∀ {p : List Char} {u : List Char}, (∀ a ∈ p, q a = true) → q b = false →
      (p ++ b :: u).dropWhile q = b :: u
  | [], u, _, hb => by simp [List.dropWhile_cons, hb]
  | a :: p, u, hp, hb => by
    have ha : q a = true := hp a (by simp)
    simp only [List.cons_append, List.dropWhile_cons, ha, if_true]
    exact dropWhile_append_all (fun x hx => hp x (by simp [hx])) hb

/-- Characterisation of a successful anchored match: `l` decomposes as the
literal `C:\Users\`, a nonempty backslash-free segment, a backslash, and the
remainder `t`. -/
theorem matchHome_eq_some_iff {l t : List Char} :
    matchHome l = some t ↔
      ∃ seg : List Char, seg ≠ [] ∧ (∀ a ∈ seg, a ≠ '\\') ∧
        l = homePattern ++ (seg ++ '\\' :: t) := by
  constructor
  · intro h
    unfold matchHome at h
    split at h
    · next hpre =>
      obtain ⟨r, hr⟩ := List.isPrefixOf_iff_prefix.mp hpre
      subst hr
      rw [show (9 : Nat) = homePattern.length from rfl, List.drop_left] at h
      split at h
      · exact absurd h (by simp)
      · next hseg =>
        split at h
        · next t' hdrop =>
          cases h
          refine ⟨r.takeWhile (fun a => a != '\\'), hseg, ?_, ?_⟩
          · intro a ha
            have hq := List.mem_takeWhile_imp ha
            simpa using hq
          · congr 1
            conv_lhs => rw [← List.takeWhile_append_dropWhile
              (p := fun a => a != '\\') (l := r)]
            rw [hdrop]
        · exact absurd h (by simp)
    · exact absurd h (by simp)
  · rintro ⟨seg, hne, hbs, rfl⟩
    have hq : ∀ a ∈ seg, (fun a => a != '\\') a = true := by
      intro a ha; simpa using hbs a ha
    have hb : (fun a => a != '\\') '\\' = false := by decide
    unfold matchHome
    rw [if_pos ( List.isPrefixOf_iff_prefix.mpr (List.prefix_append _ _)),
      show (9 : Nat) = homePattern.length from rfl, List.drop_left,
      takeWhile_append_all hq hb, dropWhile_append_all hq hb,
      if_neg hne]
    rfl

-- ### Fuel irrelevance and step equations for `subHome`

theorem subHomeF_nil (n : Nat) : subHomeF n [] = [] := by cases n <;> rfl

theorem matchHome_some_length {l t : List Char} (h : matchHome l = some t) :
    t.length + 11 ≤ l.length := by
  rcases matchHome_eq_some_iff.mp h with ⟨seg, hne, -, rfl⟩
  have hseg : 1 ≤ seg.length := List.length_pos.mpr hne
  simp only [List.length_append, List.length_cons,
    show homePattern.length = 9 from rfl]
  omega

theorem subHomeF_fuel :
    ∀ (n₁ : Nat) (l : List Char) (n₂ : Nat), l.length ≤ n₁ → l.length ≤ n₂ →
      subHomeF n₁ l = subHomeF n₂ l := by
  intro n₁
  induction n₁ with
  | zero =>
    intro l n₂ h1 _
    have hl : l = [] := by cases l <;> simp_all
    subst hl
    rw [subHomeF_nil, subHomeF_nil]
  | succ k ih =>
    intro l n₂ h1 h2
    cases l with
    | nil => rw [subHomeF_nil, subHomeF_nil]
    | cons c cs =>
      cases n₂ with
      | zero => simp at h2
      | succ m =>
        simp only [subHomeF]
        simp only [List.length_cons] at h1 h2
        cases hm : matchHome (c :: cs) with
        | some t =>
          have ht := matchHome_some_length hm
          simp only [List.length_cons] at ht
          show userHome ++ subHomeF k t = userHome ++ subHomeF m t
          rw [ih t m (by omega) (by omega)]
        | none =>
          show c :: subHomeF k cs = c :: subHomeF m cs
          rw [ih cs m (by omega) (by omega)]

theorem subHome_nil : subHome [] = [] := rfl

theorem subHome_cons_none {c : Char} {cs : List Char}
    (h : matchHome (c :: cs) = none) : subHome (c :: cs) = c :: subHome cs := by
  show subHomeF (c :: cs).length (c :: cs) = _
  simp only [List.length_cons, subHomeF, h]
  rfl

theorem subHome_cons_some {c : Char} {cs t : List Char}
    (h : matchHome (c :: cs) = some t) :
    subHome (c :: cs) = userHome ++ subHome t := by
  have ht := matchHome_some_length h
  simp only [List.length_cons] at ht
  show subHomeF (c :: cs).length (c :: cs) = _
  simp only [List.length_cons, subHomeF, h]
  rw [subHomeF_fuel cs.length t t.length (by omega) le_rfl]
  rfl

theorem subHome_eq_of_some {l t : List Char} (h : matchHome l = some t) :
    subHome l = userHome ++ subHome t := by
  cases l with
  | nil => rw [matchHome_nil] at h; cases h
  | cons c cs => exact subHome_cons_some h

-- ### Structural lemmas about the scan

theorem subHome_append_noC {p x : List Char} (hp : ∀ a ∈ p, a ≠ 'C') :
    subHome (p ++ x) = p ++ subHome x := by
  induction p with
  | nil => rfl
  | cons a p ih =>
    have hnone : matchHome (a :: (p ++ x)) = none :=
      matchHome_none_of_head (hp a (by simp))
    rw [List.cons_append, subHome_cons_none hnone,
      ih (fun b hb => hp b (by simp [hb]))]
    rfl

theorem subHome_noC {l : List Char} (h : ∀ a ∈ l, a ≠ 'C') : subHome l = l := by
  have := subHome_append_noC (x := []) h
  simpa [subHome_nil] using this

theorem subHome_no_bs {l : List Char} (h : ∀ a ∈ l, a ≠ '\\') : subHome l = l := by
  induction l with
  | nil => rfl
  | cons c cs ih =>
    rw [subHome_cons_none (matchHome_none_of_no_bs h),
      ih (fun b hb => h b (by simp [hb]))]

theorem dropWhile_head_false {q : Char → Bool} :
    ∀ {l : List Char} {x : Char} {xs : List Char},
      l.dropWhile q = x :: xs → q x = false := by
  intro l
  induction l with
  | nil => intro x xs h; simp at h
  | cons a as ih =>
    intro x xs h
    rw [List.dropWhile_cons] at h
    split at h
    · exact ih h
    · next hqa => cases h; simpa using hqa

theorem prefix_of_prefix_subHome :
    ∀ (n : Nat) (x : List Char), x.length ≤ n → ∀ p : List Char, '/' ∉ p →
      p <+: subHome x → p <+: x := by
  intro n
  induction n with
  | zero =>
    intro x hx p _ h
    have hxnil : x = [] := by cases x <;> simp_all
    subst hxnil
    rw [subHome_nil] at h
    exact h
  | succ k ih =>
    intro x hx p hp h
    cases x with
    | nil => rwa [subHome_nil] at h
    | cons c cs =>
      simp only [List.length_cons] at hx
      cases hm : matchHome (c :: cs) with
      | some t =>
        rw [subHome_cons_some hm,
          show userHome ++ subHome t
            = '/' :: (['U', 'S', 'E', 'R', '_', 'H', 'O', 'M', 'E', '/']
              ++ subHome t) from rfl] at h
        cases p with
        | nil => exact List.nil_prefix
        | cons a p =>
          obtain ⟨ha, -⟩ := List.cons_prefix_cons.mp h
          exact absurd (ha ▸ List.mem_cons_self a p) hp
      | none =>
        rw [subHome_cons_none hm] at h
        cases p with
        | nil => exact List.nil_prefix
        | cons a p =>
          obtain ⟨ha, hpre⟩ := List.cons_prefix_cons.mp h
          have : p <+: cs :=
            ih cs (by omega) p (fun hmem => hp (by simp [hmem])) hpre
          exact List.cons_prefix_cons.mpr ⟨ha, this⟩

-- ### A failed match position stays failed after rewriting the tail

theorem matchHome_append_bs (w : List Char) :
    matchHome (homePattern ++ '\\' :: w) = none := by
  unfold matchHome
  rw [if_pos ( List.isPrefixOf_iff_prefix.mpr (List.prefix_append _ _)),
    show (9 : Nat) = homePattern.length from rfl, List.drop_left,
    List.takeWhile_cons_of_neg (by decide), if_pos rfl]

theorem matchHome_append_no_bs {r : List Char} (h : ∀ a ∈ r, a ≠ '\\') :
    matchHome (homePattern ++ r) = none := by
  unfold matchHome
  rw [if_pos ( List.isPrefixOf_iff_prefix.mpr (List.prefix_append _ _)),
    show (9 : Nat) = homePattern.length from rfl, List.drop_left]
  cases r with
  | nil => rw [List.takeWhile_nil, if_pos rfl]
  | cons b r =>
    have htw : List.takeWhile (fun a => a != '\\') (b :: r) = b :: r :=
      List.takeWhile_eq_self_iff.mpr (by intro x hx; simpa using h x hx)
    have hdw : List.dropWhile (fun a => a != '\\') (b :: r) = [] :=
      List.dropWhile_eq_nil_iff.mpr (by intro x hx; simpa using h x hx)
    rw [htw, if_neg (by simp), hdw]

/-- Key lemma: if the scan fails to match at a position, it still fails
there after the remainder of the list has been rewritten by the scan.  This
is what makes the substitution idempotent. -/
theorem matchHome_subHome_none {c : Char} {cs : List Char}
    (h : matchHome (c :: cs) = none) : matchHome (c :: subHome cs) = none := by
  by_cases hpre : homePattern <+: c :: subHome cs
  · rw [show homePattern
        = 'C' :: [':', '\\', 'U', 's', 'e', 'r', 's', '\\'] from rfl] at hpre
    obtain ⟨hc, htp⟩ := List.cons_prefix_cons.mp hpre
    subst hc
    have htp' : [':', '\\', 'U', 's', 'e', 'r', 's', '\\'] <+: cs :=
      prefix_of_prefix_subHome cs.length cs le_rfl _ (by decide) htp
    obtain ⟨r, hr⟩ := htp'
    subst hr
    have h' : matchHome (homePattern ++ r) = none := h
    have hsub : subHome ([':', '\\', 'U', 's', 'e', 'r', 's', '\\'] ++ r)
        = [':', '\\', 'U', 's', 'e', 'r', 's', '\\'] ++ subHome r :=
      subHome_append_noC (by decide)
    rw [hsub]
    show matchHome (homePattern ++ subHome r) = none
    cases hd : r.dropWhile (fun a => a != '\\') with
    | nil =>
      have hall : ∀ a ∈ r, a ≠ '\\' := by
        intro a ha
        simpa using List.dropWhile_eq_nil_iff.mp hd a ha
      rw [subHome_no_bs hall]
      exact h'
    | cons x t =>
      have hx : x = '\\' := by simpa using dropWhile_head_false hd
      subst hx
      cases htk : r.takeWhile (fun a => a != '\\') with
      | nil =>
        have hr2 : r = '\\' :: t := by
          conv_lhs => rw [← List.takeWhile_append_dropWhile
            (p := fun a => a != '\\') (l := r)]
          rw [htk, hd, List.nil_append]
        subst hr2
        rw [subHome_cons_none (matchHome_none_of_head (by decide))]
        exact matchHome_append_bs _
      | cons b sgt =>
        exfalso
        have hsome : matchHome (homePattern ++ r) = some t := by
          apply matchHome_eq_some_iff.mpr
          refine ⟨b :: sgt, by simp, ?_, ?_⟩
          · intro a ha
            have ha' : a ∈ r.takeWhile (fun a => a != '\\') := htk ▸ ha
            simpa using List.mem_takeWhile_imp ha'
          · congr 1
            conv_lhs => rw [← List.takeWhile_append_dropWhile
              (p := fun a => a != '\\') (l := r)]
            rw [htk, hd]
        rw [h'] at hsome
        cases hsome
  · exact matchHome_none_of_not_pre hpre

-- ### Idempotence and completeness of the scan

theorem subHome_idem_aux :
    ∀ (n : Nat) (l : List Char), l.length ≤ n →
      subHome (subHome l) = subHome l := by
  intro n
  induction n with
  | zero =>
    intro l h
    have hl : l = [] := by cases l <;> simp_all
    subst hl
    rw [subHome_nil, subHome_nil]
  | succ k ih =>
    intro l h
    cases l with
    | nil => rw [subHome_nil, subHome_nil]
    | cons c cs =>
      simp only [List.length_cons] at h
      cases hm : matchHome (c :: cs) with
      | some t =>
        have ht := matchHome_some_length hm
        simp only [List.length_cons] at ht
        rw [subHome_cons_some hm, subHome_append_noC (by decide),
          ih t (by omega)]
      | none =>
        rw [subHome_cons_none hm,
          subHome_cons_none (matchHome_subHome_none hm), ih cs (by omega)]

theorem subHome_idem (l : List Char) : subHome (subHome l) = subHome l :=
  subHome_idem_aux l.length l le_rfl

theorem matchesNowhere_nil : matchesNowhere [] := by decide

theorem matchesNowhere_cons {c : Char} {cs : List Char} :
    matchesNowhere (c :: cs) ↔
      matchHome (c :: cs) = none ∧ matchesNowhere cs := by
  unfold matchesNowhere
  rw [List.tails_cons, List.forall_mem_cons]

theorem matchesNowhere_append_noC {p x : List Char}
    (hp : ∀ a ∈ p, a ≠ 'C') (hx : matchesNowhere x) :
    matchesNowhere (p ++ x) := by
  induction p with
  | nil => simpa using hx
  | cons a p ih =>
    rw [List.cons_append, matchesNowhere_cons]
    exact ⟨matchHome_none_of_head (hp a (by simp)),
      ih (fun b hb => hp b (by simp [hb]))⟩

/-- Completeness of the scan: its output contains no occurrence of the
home-path pattern anywhere — every occurrence has been replaced. -/
theorem subHome_matchesNowhere_aux :
    ∀ (n : Nat) (l : List Char), l.length ≤ n → matchesNowhere (subHome l) := by
  intro n
  induction n with
  | zero =>
    intro l h
    have hl : l = [] := by cases l <;> simp_all
    subst hl
    rw [subHome_nil]
    exact matchesNowhere_nil
  | succ k ih =>
    intro l h
    cases l with
    | nil => rw [subHome_nil]; exact matchesNowhere_nil
    | cons c cs =>
      simp only [List.length_cons] at h
      cases hm : matchHome (c :: cs) with
      | some t =>
        have ht := matchHome_some_length hm
        simp only [List.length_cons] at ht
        rw [subHome_cons_some hm]
        exact matchesNowhere_append_noC (by decide) (ih t (by omega))
      | none =>
        rw [subHome_cons_none hm]
        exact matchesNowhere_cons.mpr
          ⟨matchHome_subHome_none hm, ih cs (by omega)⟩

theorem subHome_matchesNowhere (l : List Char) : matchesNowhere (subHome l) :=
  subHome_matchesNowhere_aux l.length l le_rfl

/-- A list with no occurrence of the pattern is left unchanged. -/
theorem subHome_of_matchesNowhere_aux :
    ∀ (n : Nat) (l : List Char), l.length ≤ n → matchesNowhere l →
      subHome l = l := by
  intro n
  induction n with
  | zero =>
    intro l h _
    have hl : l = [] := by cases l <;> simp_all
    subst hl
    exact subHome_nil
  | succ k ih =>
    intro l h hmn
    cases l with
    | nil => exact subHome_nil
    | cons c cs =>
      simp only [List.length_cons] at h
      obtain ⟨h1, h2⟩ := matchesNowhere_cons.mp hmn
      rw [subHome_cons_none h1, ih cs (by omega) h2]

theorem subHome_of_matchesNowhere {l : List Char} (h : matchesNowhere l) :
    subHome l = l :=
  subHome_of_matchesNowhere_aux l.length l le_rfl h

-- ### `str.replace(pat, pat)` is the identity

theorem pyReplaceF_nil (pat rep : List Char) (n : Nat) :
    pyReplaceF pat rep n [] = [] := by cases n <;> rfl

theorem pyReplace_self_aux (pat : List Char) (hpat : pat ≠ []) :
    ∀ (n : Nat) (l : List Char), l.length ≤ n → pyReplaceF pat pat n l = l := by
  have hplen : 1 ≤ pat.length := List.length_pos.mpr hpat
  intro n
  induction n with
  | zero =>
    intro l h
    have hl : l = [] := by cases l <;> simp_all
    subst hl
    rw [pyReplaceF_nil]
  | succ k ih =>
    intro l h
    cases l with
    | nil => rw [pyReplaceF_nil]
    | cons c cs =>
      simp only [List.length_cons] at h
      show pyReplaceF pat pat (k + 1) (c :: cs) = c :: cs
      simp only [pyReplaceF]
      split
      · next hpre =>
        obtain ⟨r, hr⟩ := List.isPrefixOf_iff_prefix.mp hpre
        have hlen : pat.length + r.length = cs.length + 1 := by
          have := congrArg List.length hr
          simpa [List.length_append] using this
        rw [← hr, List.drop_left, ih r (by omega)]
      · next =>
        rw [ih cs (by omega)]

theorem pyReplace_self (pat : List Char) (hpat : pat ≠ []) (l : List Char) :
    pyReplace pat pat l = l :=
  pyReplace_self_aux pat hpat l.length l le_rfl

theorem redact_eq_subHome (s : String) : redact s = ⟨subHome s.data⟩ := by
  unfold redact
  rw [pyReplace_self userTok (by decide) s.data]

-- ### The byte heuristic `is_binary` (lines 5–14)

/-- Membership in `textchars` (line 6):
`bytearray({7,8,9,10,12,13,27} | set(range(0x20, 0x100)) - {0x7f})`. -/
def textchar (b : Nat) : Bool :=
  b == 7 || b == 8 || b == 9 || b == 10 || b == 12 || b == 13 || b == 27 ||
    (decide (0x20 ≤ b) && decide (b < 0x100) && b != 0x7f)

/-- `is_binary_string` (lines 7–8): `bytes_to_check.translate(None, textchars)`
deletes every `textchar` byte; the result is truthy iff some byte survives. -/
def is_binary_string (bs : List Nat) : Bool := bs.any (fun b => !(textchar b))

/-- A file as the model sees it: its raw bytes (probed by `is_binary`), the
result of reading it as UTF-8 text (`none` when the read or the decode
raises), and whether opening it for writing succeeds. -/
structure File where
  bytes : List Nat
  readText : Option String
  writeOk : Bool

/-- The file-system state: paths to files; `none` means any attempt to open
the path raises. -/
def FS : Type := String → Option File

def setFile (fs : FS) (p : String) (f : File) : FS :=
  fun q => if q = p then some f else fs q

/-- `is_binary` (lines 5–14): probe the first 1024 bytes (`f.read(1024)`);
any I/O error while probing is reported as binary (lines 13–14). -/
def is_binary (fs : FS) (p : String) : Bool :=
  match fs p with
  | none => true
  | some f => is_binary_string (f.bytes.take 1024)

/-- Python's substring test `pat in s`. -/
def containsSub (s pat : String) : Bool := decide (pat.data <:+: s.data)

/-- The path-exclusion test of lines 20–24. -/
def excludedPath (p : String) : Bool :=
  containsSub p "vendor/" || containsSub p "node_modules/" ||
    containsSub p ".git/" || containsSub p ".history/" || containsSub p "dist/"

/-- Observable actions of a run: the `git ls-files` listing call, opening a
file for writing (and rewriting it), printing a per-file error line, and
`git add .`. -/
inductive Event where
  | lsFiles : Event
  | writeF : String → Event
  | logErr : String → Event
  | addAll : Event
deriving DecidableEq

/-- The UTF-8 bytes of a string, as `f.write(content)` leaves them on disk. -/
def utf8Bytes (s : String) : List Nat := s.toUTF8.toList.map (fun b => b.toNat)

/-- `replace_pii` (lines 16–39): skip binary or excluded paths; otherwise
read the file as UTF-8 text, apply `redact`, and write the result back.  Any
failure (read, decode, or write) is caught by the `except` block and logged
(line 39); the function itself is total. -/
def replace_pii (fs : FS) (p : String) : FS × List Event :=
  if is_binary fs p || excludedPath p then (fs, [])
  else
    match fs p with
    | none => (fs, [Event.logErr p])
    | some f =>
      match f.readText with
      | none => (fs, [Event.logErr p])
      | some content =>
        if f.writeOk then
          (setFile fs p
            { bytes := utf8Bytes (redact content)
              readText := some (redact content)
              writeOk := f.writeOk },
           [Event.writeF p])
        else (fs, [Event.logErr p])

/-- The per-file loop of lines 45–48, in listing order. -/
def processAll (fs : FS) : List String → FS × List Event
  | [] => (fs, [])
  | p :: rest =>
    let r1 := replace_pii fs p
    let r2 := processAll r1.1 rest
    (r2.1, r1.2 ++ r2.2)

/-- The content of `tracked_files.txt`: one listed path per line (line 43). -/
def listingContent (tracked : List String) : String :=
  String.join (tracked.map (fun p => p ++ "\n"))

def listingFile (tracked : List String) : File :=
  { bytes := utf8Bytes (listingContent tracked)
    readText := some (listingContent tracked)
    writeOk := true }

/-- `main` (lines 41–51): `git ls-files > tracked_files.txt` overwrites the
listing file, each listed line is stripped and processed in order, then
`git add .` stages everything.  (Named `mainRun` because Lean reserves
`main` for an IO entry point.) -/
def mainRun (fs : FS) (tracked : List String) : FS × List Event :=
  let fs1 := setFile fs "tracked_files.txt" (listingFile tracked)
  let r := processAll fs1 (tracked.map (fun l => l.trim))
  (r.1, Event.lsFiles :: r.2 ++ [Event.addAll])

-- ### Run-level helper lemmas

theorem replace_pii_events {fs : FS} {p : String} :
    ∀ e ∈ (replace_pii fs p).2, e = Event.writeF p ∨ e = Event.logErr p := by
  intro e he
  unfold replace_pii at he
  split at he
  · simp at he
  · split at he
    · simp at he; simp [he]
    · split at he
      · simp at he; simp [he]
      · split at he
        · simp at he; simp [he]
        · simp at he; simp [he]

theorem processAll_no_addAll {fs : FS} :
    ∀ ps : List String, Event.addAll ∉ (processAll fs ps).2 := by
  intro ps
  induction ps generalizing fs with
  | nil => simp [processAll]
  | cons p rest ih =>
    intro hmem
    simp only [processAll, List.mem_append] at hmem
    rcases hmem with hmem | hmem
    · rcases replace_pii_events Event.addAll hmem with h | h <;> cases h
    · exact ih hmem

theorem replace_pii_some_preserved {fs : FS} {p q : String}
    (h : (fs q).isSome = true) : (((replace_pii fs p).1) q).isSome = true := by
  unfold replace_pii
  split
  · exact h
  · split
    · exact h
    · split
      · exact h
      · split
        · simp only [setFile]
          split
          · simp
          · exact h
        · exact h

theorem processAll_some_preserved {q : String} :
    ∀ (ps : List String) (fs : FS), (fs q).isSome = true →
      (((processAll fs ps).1) q).isSome = true := by
  intro ps
  induction ps with
  | nil => intro fs h; exact h
  | cons p rest ih =>
    intro fs h
    exact ih _ (replace_pii_some_preserved h)

-- ### Auxiliary: the allowed-byte predicate written as in the spec

theorem textchar_iff {b : Nat} :
    textchar b = true ↔
      b = 7 ∨ b = 8 ∨ b = 9 ∨ b = 10 ∨ b = 12 ∨ b = 13 ∨ b = 27 ∨
        (0x20 ≤ b ∧ b ≤ 0xff ∧ b ≠ 0x7f) := by
  unfold textchar
  simp only [Bool.or_eq_true, beq_iff_eq, Bool.and_eq_true, decide_eq_true_eq,
    bne_iff_ne, ne_eq]
  constructor
  · intro h; omega
  · intro h; omega

-- ### Claim theorems

/-- C1: `redact` replaces every occurrence of `C:\Users\<segment>\`
(`<segment>` = one or more non-backslash characters) with `/USER_HOME/` and
leaves all other characters unchanged: the two spec scenarios hold, content
with no occurrence is returned verbatim, an occurrence at a position is
rewritten to `/USER_HOME/` with the scan continuing after it, and the output
contains no remaining occurrence. -/
theorem redact_replaces_home_paths :
    redact "Config at C:\\Users\\alice\\settings.ini"
        = "Config at /USER_HOME/settings.ini" ∧
    redact "C:\\Users\\bob\\" = "/USER_HOME/" ∧
    (∀ s : String, matchesNowhere s.data → redact s = s) ∧
    (∀ seg post : List Char, seg ≠ [] → (∀ a ∈ seg, a ≠ '\\') →
      subHome (homePattern ++ (seg ++ '\\' :: post)) = userHome ++ subHome post) ∧
    (∀ s : String, matchesNowhere (redact s).data) := by
  refine ⟨by decide, by decide, ?_, ?_, ?_⟩
  · intro s h
    rw [redact_eq_subHome, subHome_of_matchesNowhere h]
  · intro seg post hne hbs
    exact subHome_eq_of_some (matchHome_eq_some_iff.mpr ⟨seg, hne, hbs, rfl⟩)
  · intro s
    rw [redact_eq_subHome]
    exact subHome_matchesNowhere s.data

theorem redact_replaces_home_paths_witness :
    redact "no paths here" = "no paths here" ∧
    subHome (homePattern ++ (['x'] ++ '\\' :: [])) = userHome ++ subHome [] :=
  ⟨redact_replaces_home_paths.2.2.1 "no paths here" (by decide),
   redact_replaces_home_paths.2.2.2.1 ['x'] [] (by decide) (by decide)⟩

/-- C2: for a readable file, `is_binary` reports binary iff some byte among
the first 1024 bytes lies outside the allowed set
`{0x07,0x08,0x09,0x0A,0x0C,0x0D,0x1B} ∪ ([0x20,0xFF] \ {0x7F})`. -/
theorem is_binary_iff_disallowed_byte (fs : FS) (p : String) (f : File)
    (hf : fs p = some f) :
    is_binary fs p = true ↔
      ∃ b ∈ f.bytes.take 1024,
        ¬ (b = 0x07 ∨ b = 0x08 ∨ b = 0x09 ∨ b = 0x0a ∨ b = 0x0c ∨ b = 0x0d ∨
            b = 0x1b ∨ (0x20 ≤ b ∧ b ≤ 0xff ∧ b ≠ 0x7f)) := by
  unfold is_binary
  rw [hf]
  show is_binary_string (f.bytes.take 1024) = true ↔ _
  unfold is_binary_string
  rw [List.any_eq_true]
  constructor
  · rintro ⟨b, hm, hv⟩
    refine ⟨b, hm, fun hc => ?_⟩
    rw [textchar_iff.mpr hc] at hv
    cases hv
  · rintro ⟨b, hm, hv⟩
    refine ⟨b, hm, ?_⟩
    cases htc : textchar b
    · rfl
    · exact absurd (textchar_iff.mp htc) hv

def exFile2 : File := { bytes := [0, 65], readText := none, writeOk := true }

def exFS2 : FS := fun _ => some exFile2

theorem is_binary_iff_disallowed_byte_witness :
    is_binary exFS2 "a.bin" = true ↔
      ∃ b ∈ ([0, 65] : List Nat).take 1024,
        ¬ (b = 0x07 ∨ b = 0x08 ∨ b = 0x09 ∨ b = 0x0a ∨ b = 0x0c ∨ b = 0x0d ∨
            b = 0x1b ∨ (0x20 ≤ b ∧ b ≤ 0xff ∧ b ≠ 0x7f)) :=
  is_binary_iff_disallowed_byte exFS2 "a.bin" exFile2 rfl

/-- C3: `redact` is idempotent: applying it twice equals applying it once. -/
theorem redact_idempotent (s : String) : redact (redact s) = redact s := by
  rw [redact_eq_subHome, redact_eq_subHome]
  show (⟨subHome (subHome s.data)⟩ : String) = ⟨subHome s.data⟩
  rw [subHome_idem]

/-- C4: a file whose path contains an excluded substring, or whose first
1024 bytes contain a disallowed byte, is skipped: no write event is emitted
and the file system is returned unchanged. -/
theorem replace_pii_skips (fs : FS) (p : String)
    (h : excludedPath p = true ∨ is_binary fs p = true) :
    replace_pii fs p = (fs, []) := by
  unfold replace_pii
  rcases h with h | h
  · rw [if_pos (by simp [h])]
  · rw [if_pos (by simp [h])]

def vendorFile : File :=
  { bytes := [67, 58], readText := some "C:\\Users\\alice\\x", writeOk := true }

def zeroFile : File := { bytes := [0], readText := some "", writeOk := true }

def exFS4 : FS :=
  fun q => if q = "vendor/lib/util.py" then some vendorFile else some zeroFile

theorem replace_pii_skips_witness :
    replace_pii exFS4 "vendor/lib/util.py" = (exFS4, []) ∧
    replace_pii exFS4 "data.bin" = (exFS4, []) :=
  ⟨replace_pii_skips exFS4 "vendor/lib/util.py" (Or.inl (by decide)),
   replace_pii_skips exFS4 "data.bin" (Or.inr (by decide))⟩

/-- C5: for an eligible file (neither binary nor excluded) whose content
contains no occurrence of either redaction pattern, processing rewrites the
file with its own content unchanged — the text is identical and the on-disk
bytes are its UTF-8 re-encoding. -/
theorem replace_pii_no_match_roundtrip (fs : FS) (p : String) (f : File)
    (content : String)
    (hf : fs p = some f) (hread : f.readText = some content)
    (hwrite : f.writeOk = true)
    (hbin : is_binary fs p = false) (hexc : excludedPath p = false)
    (huser : ¬ userTok <:+: content.data)
    (hhome : matchesNowhere content.data) :
    replace_pii fs p =
      (setFile fs p
        { bytes := utf8Bytes content
          readText := some content
          writeOk := true },
       [Event.writeF p]) := by
  have hred : redact content = content := by
    rw [redact_eq_subHome, subHome_of_matchesNowhere hhome]
  unfold replace_pii
  rw [hbin, hexc, if_neg (by simp), hf]
  show (match f.readText with
    | none => (fs, [Event.logErr p])
    | some content =>
      if f.writeOk then
        (setFile fs p
          { bytes := utf8Bytes (redact content)
            readText := some (redact content)
            writeOk := f.writeOk },
         [Event.writeF p])
      else (fs, [Event.logErr p])) = _
  rw [hread]
  show (if f.writeOk then _ else _) = _
  rw [hwrite, if_pos rfl, hred]

def exFile5 : File :=
  { bytes := [104, 101, 108, 108, 111], readText := some "hello", writeOk := true }

def exFS5 : FS := fun _ => some exFile5

theorem replace_pii_no_match_roundtrip_witness :
    replace_pii exFS5 "notes.txt" =
      (setFile exFS5 "notes.txt"
        { bytes := utf8Bytes "hello"
          readText := some "hello"
          writeOk := true },
       [Event.writeF "notes.txt"]) :=
  replace_pii_no_match_roundtrip exFS5 "notes.txt" exFile5 "hello" rfl rfl rfl
    (by decide) (by decide) (by decide) (by decide)

/-- C6: when processing a non-skipped file fails (read/decode error, or the
write cannot be performed), `replace_pii` logs the path and leaves the file
system unchanged, and the run continues with the remaining files exactly as
if the failing file had only produced its log line; the model is a total
function, so the failure never escapes `replace_pii`. -/
theorem replace_pii_failure_logs_and_continues (fs : FS) (p : String)
    (f : File) (rest : List String)
    (hbin : is_binary fs p = false) (hexc : excludedPath p = false)
    (hf : fs p = some f)
    (hfail : f.readText = none ∨ f.writeOk = false) :
    replace_pii fs p = (fs, [Event.logErr p]) ∧
    processAll fs (p :: rest)
      = ((processAll fs rest).1, Event.logErr p :: (processAll fs rest).2) := by
  have h1 : replace_pii fs p = (fs, [Event.logErr p]) := by
    unfold replace_pii
    rw [hbin, hexc, if_neg (by simp), hf]
    show (match f.readText with
      | none => (fs, [Event.logErr p])
      | some content =>
        if f.writeOk then
          (setFile fs p
            { bytes := utf8Bytes (redact content)
              readText := some (redact content)
              writeOk := f.writeOk },
           [Event.writeF p])
        else (fs, [Event.logErr p])) = _
    cases hrt : f.readText with
    | none => rfl
    | some content =>
      rcases hfail with hfail | hfail
      · rw [hfail] at hrt; cases hrt
      · show (if f.writeOk then _ else _) = _
        rw [hfail, if_neg (by simp)]
  refine ⟨h1, ?_⟩
  show ((processAll (replace_pii fs p).1 rest).1,
    (replace_pii fs p).2 ++ (processAll (replace_pii fs p).1 rest).2) = _
  rw [h1]
  rfl

def exFile6 : File := { bytes := [65], readText := none, writeOk := true }

def exFS6 : FS := fun _ => some exFile6

theorem replace_pii_failure_logs_and_continues_witness :
    replace_pii exFS6 "broken.txt" = (exFS6, [Event.logErr "broken.txt"]) ∧
    processAll exFS6 ["broken.txt"]
      = (exFS6, [Event.logErr "broken.txt"]) := by
  have h := replace_pii_failure_logs_and_continues exFS6 "broken.txt" exFile6 []
    (by decide) (by decide) rfl (Or.inl rfl)
  exact ⟨h.1, h.2⟩

/-- C7: an I/O error while probing a path (the path cannot be opened at all)
makes `is_binary` answer `true`, so the file is skipped silently and the
state is unchanged; `is_binary` itself is a total function, so the probe
failure never escapes it. -/
theorem is_binary_probe_failure (fs : FS) (p : String) (h : fs p = none) :
    is_binary fs p = true ∧ replace_pii fs p = (fs, []) := by
  have hb : is_binary fs p = true := by
    unfold is_binary
    rw [h]
  refine ⟨hb, ?_⟩
  unfold replace_pii
  rw [if_pos (by simp [hb])]

def exFS7 : FS := fun _ => none

theorem is_binary_probe_failure_witness :
    is_binary exFS7 "gone.txt" = true ∧ replace_pii exFS7 "gone.txt" = (exFS7, []) :=
  is_binary_probe_failure exFS7 "gone.txt" rfl

/-- C8: in every run the staging call (`git add .`) is invoked exactly once,
as the very last event, after every listed path has been processed: the
trace is the listing call, then all per-file events, then one `addAll`. -/
theorem mainRun_stages_once_after_processing (fs : FS) (tracked : List String) :
    (mainRun fs tracked).2
        = Event.lsFiles ::
            (processAll (setFile fs "tracked_files.txt" (listingFile tracked))
              (tracked.map (fun l => l.trim))).2 ++ [Event.addAll] ∧
    Event.addAll ∉
        (processAll (setFile fs "tracked_files.txt" (listingFile tracked))
          (tracked.map (fun l => l.trim))).2 ∧
    (mainRun fs tracked).2.count Event.addAll = 1 ∧
    (mainRun fs tracked).2.getLast? = some Event.addAll := by
  have hmem := @processAll_no_addAll
    (setFile fs "tracked_files.txt" (listingFile tracked))
    (tracked.map (fun l => l.trim))
  refine ⟨rfl, hmem, ?_, ?_⟩
  · show ((Event.lsFiles ::
      (processAll (setFile fs "tracked_files.txt" (listingFile tracked))
        (tracked.map (fun l => l.trim))).2) ++ [Event.addAll]).count Event.addAll = 1
    rw [List.count_append, List.count_cons, List.count_eq_zero.mpr hmem]
    rfl
  · show ((Event.lsFiles ::
      (processAll (setFile fs "tracked_files.txt" (listingFile tracked))
        (tracked.map (fun l => l.trim))).2) ++ [Event.addAll]).getLast?
        = some Event.addAll
    exact List.getLast?_concat _

/-- C9: the literal substring rule of line 31 replaces `USER` by `USER`
itself, which is the identity on every string, so `redact` coincides with
the regex substitution applied alone. -/
theorem redact_literal_rule_is_noop :
    (∀ l : List Char, pyReplace userTok userTok l = l) ∧
    (∀ s : String, redact s = ⟨subHome s.data⟩) :=
  ⟨fun l => pyReplace_self userTok (by decide) l, redact_eq_subHome⟩

/-- C10: every run overwrites `tracked_files.txt` with the listing, the file
still exists at the end of the run (it is never deleted), and the final
event is the stage-all call, which therefore stages it together with all
other working-tree changes. -/
theorem mainRun_creates_listing_file (fs : FS) (tracked : List String) :
    (setFile fs "tracked_files.txt" (listingFile tracked)) "tracked_files.txt"
        = some (listingFile tracked) ∧
    (((mainRun fs tracked).1) "tracked_files.txt").isSome = true ∧
    (mainRun fs tracked).2.getLast? = some Event.addAll := by
  refine ⟨by simp [setFile], ?_, ?_⟩
  · show (((processAll (setFile fs "tracked_files.txt" (listingFile tracked))
      (tracked.map (fun l => l.trim))).1) "tracked_files.txt").isSome = true
    apply processAll_some_preserved
    simp [setFile]
  · show ((Event.lsFiles ::
      (processAll (setFile fs "tracked_files.txt" (listingFile tracked))
        (tracked.map (fun l => l.trim))).2) ++ [Event.addAll]).getLast?
        = some Event.addAll
    exact List.getLast?_concat _
